import Mathlib

/-!
Shallow embedding of the Thanos in-memory LRU cache
(`pkg/cache/inmemory.go`) and proofs about it.

Modelling conventions:
* Byte slices are `List Nat`; only their lengths matter to the cache logic.
* Wall-clock time is an explicit `Nat` parameter (`now`); the Go code calls
  `time.Now()` once per operation.  The expiry test `time.Now().After(t)` is
  the strict comparison `t < now`.
* Byte sizes (`curSize`, `maxSizeBytes`, `maxItemSizeBytes`, slice lengths)
  are naturals; Go's `uint64` arithmetic never wraps on realisable slice
  lengths, so natural-number arithmetic is the faithful abstraction.
* The underlying `simplelru.LRU` is an external collaborator (it is vendored
  outside this repository's source); it is modelled as a recency-ordered
  association list, most-recently-used first.  The code constructs it with
  capacity `maxInt` precisely so that its built-in count limit never binds;
  the model therefore has no count limit.  `Get` promotes the key to the
  front, `Add` inserts at the front, `RemoveOldest` removes the back,
  `Remove` and `Purge` run the eviction callback (`onEvict`).
* Prometheus counters that the claims mention (`evicted`, `requests`, `hits`,
  `hitsExpired`, `added`, `overflow`) are `Nat` fields; the float gauges are
  pure observability and are not modelled.
* `ensureFits`'s eviction loop can diverge in Go (reset leaves the cache
  empty, and if the item still does not fit the loop repeats forever); the
  model returns `Option`, with `none` for that divergence.
-/

namespace InMemoryCache

/-- One cached value: the stored bytes (a private copy in Go) and the
absolute expiry instant (`time.Now().Add(ttl)` at insertion). -/
structure Entry where
  data : List Nat
  expiryTime : Nat
deriving DecidableEq, Repr

/-- The recency-ordered map of the underlying LRU: most-recently-used first,
least-recently-used last. -/
abbrev Lru := List (String × Entry)

/-- State of `InMemoryCache`: the two configured limits, the running byte
total `curSize`, the LRU contents, and the counters the code increments. -/
structure CacheState where
  maxSizeBytes : Nat
  maxItemSizeBytes : Nat
  curSize : Nat
  lru : Lru
  evicted : Nat
  requests : Nat
  hits : Nat
  hitsExpired : Nat
  added : Nat
  overflow : Nat
deriving DecidableEq, Repr

/-- A cache as constructed by `NewInMemoryCacheWithConfig`: empty LRU and
zeroed counters.  Construction in Go fails unless
`maxItemSizeBytes ≤ maxSizeBytes`; that precondition appears as a hypothesis
of the theorems. -/
def initCache (maxSize maxItem : Nat) : CacheState :=
  { maxSizeBytes := maxSize, maxItemSizeBytes := maxItem, curSize := 0,
    lru := [], evicted := 0, requests := 0, hits := 0, hitsExpired := 0,
    added := 0, overflow := 0 }

/-- Sum of `len(data)` over the entries of the LRU; the quantity `curSize`
is supposed to track. -/
def sumLens (l : Lru) : Nat := (l.map (fun p => p.2.data.length)).sum

/-- Lookup of a key in the LRU map, without any recency side effect. -/
def findEntry (k : String) (l : Lru) : Option Entry :=
  (l.find? (fun p => p.1 == k)).map (fun p => p.2)

/-- The `onEvict` callback (inmemory.go lines 195-205): bumps the `evicted`
counter and subtracts the entry's byte length from `curSize`.  (The gauge
updates are not modelled.)  Under the byte-accounting invariant the
subtraction never underflows, matching Go's `uint64` subtraction. -/
def onEvict (e : Entry) (s : CacheState) : CacheState :=
  { s with evicted := s.evicted + 1, curSize := s.curSize - e.data.length }

/-- `simplelru` `Add` (and the promotion performed by `Get`): remove any
existing binding of the key and insert the entry at the most-recent end.
No eviction callback fires on a replace. -/
def lruAdd (k : String) (e : Entry) (l : Lru) : Lru :=
  (k, e) :: l.eraseP (fun p => p.1 == k)

/-- `simplelru` `Remove` wired to the cache's callback: if the key is
present, delete its binding and run `onEvict` on its entry. -/
def lruRemoveState (k : String) (s : CacheState) : CacheState :=
  match s.lru.find? (fun p => p.1 == k) with
  | none => s
  | some p => onEvict p.2 { s with lru := s.lru.eraseP (fun q => q.1 == k) }

/-- `simplelru` `RemoveOldest` wired to the cache's callback: delete the
least-recently-used binding (the back of the list) and run `onEvict`. -/
def removeOldestState (s : CacheState) : CacheState :=
  match s.lru.getLast? with
  | none => s
  | some p => onEvict p.2 { s with lru := s.lru.dropLast }

/-- The `reset` method (lines 285-291): `Purge` runs the eviction callback
on every entry (affecting the `evicted` counter and, transiently, `curSize`),
then `curSize` is set to `0` outright. -/
def reset (s : CacheState) : CacheState :=
  let s1 := s.lru.foldl (fun t p => onEvict p.2 t) s
  { s1 with lru := [], curSize := 0 }

/-- The room-making loop of `ensureFits` (lines 270-281), with explicit
fuel.  Each iteration with a non-empty LRU removes the oldest entry and
re-checks the size predicate; with an empty LRU it resets the cache, and if
the item still does not fit the Go loop repeats this forever, which the
model renders as `none`.  The `Bool` in the result records whether the
reset branch ran.  Fuel `s.lru.length + 1` always suffices (each recursive
call removes one entry), so the fuel-exhaustion `none` is unreachable. -/
def evictLoopFuel : Nat → Nat → CacheState → Option (CacheState × Bool)
  | 0, _, _ => none
  | fuel + 1, size, s =>
    if s.curSize + size > s.maxSizeBytes then
      match s.lru.getLast? with
      | some p =>
          evictLoopFuel fuel size (onEvict p.2 { s with lru := s.lru.dropLast })
      | none =>
          let s1 := reset s
          if s1.curSize + size > s1.maxSizeBytes then none else some (s1, true)
    else
      some (s, false)

/-- The room-making loop at its actual fuel. -/
def evictLoop (size : Nat) (s : CacheState) : Option (CacheState × Bool) :=
  evictLoopFuel (s.lru.length + 1) size s

/-- `ensureFits` (lines 258-283): items larger than `maxItemSizeBytes` are
rejected (`false`, no mutation); otherwise the eviction loop makes room and
the call returns `true`.  Result: `(fits, state, resetRan)`, `none` for the
loop's divergence. -/
def ensureFits (size : Nat) (s : CacheState) : Option (Bool × CacheState × Bool) :=
  if size > s.maxItemSizeBytes then
    some (false, s, false)
  else
    (evictLoop size s).map (fun r => (true, r.1, r.2))

/-- The `get` method (lines 207-225): bump `requests`; look the key up via
`lru.Get` (which promotes it to most-recently-used); absent keys report
not-found; an entry whose expiry lies strictly in the past is counted as an
expired hit, removed (running `onEvict`), and reported not-found; otherwise
count a hit and return the stored bytes. -/
def get (now : Nat) (k : String) (s : CacheState) : Option (List Nat) × CacheState :=
  let s0 := { s with requests := s.requests + 1 }
  match findEntry k s0.lru with
  | none => (none, s0)
  | some e =>
    let s1 := { s0 with lru := lruAdd k e s0.lru }
    if e.expiryTime < now then
      (none, lruRemoveState k { s1 with hitsExpired := s1.hitsExpired + 1 })
    else
      (some e.data, { s1 with hits := s1.hits + 1 })

/-- The `set` method (lines 227-254): the existence check is `lru.Get`, so a
present key is promoted and the call returns without storing; otherwise
`ensureFits` either rejects the item (bump `overflow`) or makes room, after
which the value is stored (as a private copy in Go) with expiry
`now + ttl` at the most-recent end, and `added` and `curSize` are bumped.
`none` models the divergence of the eviction loop. -/
def set (now : Nat) (k : String) (v : List Nat) (ttl : Nat) (s : CacheState) :
    Option CacheState :=
  let size := v.length
  match findEntry k s.lru with
  | some e => some { s with lru := lruAdd k e s.lru }
  | none =>
    match ensureFits size s with
    | none => none
    | some (false, s1, _) => some { s1 with overflow := s1.overflow + 1 }
    | some (true, s1, _) =>
      let s2 := { s1 with lru := lruAdd k ⟨v, now + ttl⟩ s1.lru }
      some { s2 with added := s2.added + 1, curSize := s2.curSize + size }

/-- The `Store` method (lines 293-297): `set` applied to each pair in turn.
Go iterates a map in unspecified order; the model takes the pairs as a list,
and the theorems quantify over all lists, hence over all orders. -/
def store (now : Nat) (kvs : List (String × List Nat)) (ttl : Nat)
    (s : CacheState) : Option CacheState :=
  match kvs with
  | [] => some s
  | kv :: rest =>
    match set now kv.1 kv.2 ttl s with
    | none => none
    | some t => store now rest ttl t

/-- The `Fetch` method (lines 301-309): `get` applied to each key in turn,
collecting only the hits.  (Go accumulates into a map; the result list is
returned in key order, which no claim depends on.) -/
def fetch (now : Nat) (ks : List String) (s : CacheState) :
    List (String × List Nat) × CacheState :=
  match ks with
  | [] => ([], s)
  | k :: rest =>
    match get now k s with
    | (some v, t) =>
      let r := fetch now rest t
      ((k, v) :: r.1, r.2)
    | (none, t) => fetch now rest t

/-- One public operation on the cache, with the wall-clock instant at which
it runs. -/
inductive Op where
  | opSet (now : Nat) (k : String) (v : List Nat) (ttl : Nat)
  | opGet (now : Nat) (k : String)
  | opStore (now : Nat) (kvs : List (String × List Nat)) (ttl : Nat)
  | opFetch (now : Nat) (ks : List String)
  | opReset
deriving Repr

/-- Effect of one operation on the cache state (results discarded). -/
def step (o : Op) (s : CacheState) : Option CacheState :=
  match o with
  | .opSet now k v ttl => set now k v ttl s
  | .opGet now k => some (get now k s).2
  | .opStore now kvs ttl => store now kvs ttl s
  | .opFetch now ks => some (fetch now ks s).2
  | .opReset => some (reset s)

/-- Effect of a sequence of operations. -/
def run (ops : List Op) (s : CacheState) : Option CacheState :=
  match ops with
  | [] => some s
  | o :: rest =>
    match step o s with
    | none => none
    | some t => run rest t

/-- The cache's structural invariant: `curSize` is the exact sum of stored
value lengths, it never exceeds the total budget, every stored value
respects the per-item budget, keys are unique, and the configured limits
satisfy the construction precondition. -/
def Inv (s : CacheState) : Prop :=
  s.curSize = sumLens s.lru ∧
  s.curSize ≤ s.maxSizeBytes ∧
  (∀ p ∈ s.lru, p.2.data.length ≤ s.maxItemSizeBytes) ∧
  (s.lru.map Prod.fst).Nodup ∧
  s.maxItemSizeBytes ≤ s.maxSizeBytes

/-- Membership of a key, as the caller of `Fetch` would observe it
(ignoring expiry). -/
def containsKey (k : String) (s : CacheState) : Bool :=
  (findEntry k s.lru).isSome

/-- The two configured limits of a cache state; no operation changes them. -/
def limits (s : CacheState) : Nat × Nat := (s.maxSizeBytes, s.maxItemSizeBytes)

/-- Operations of the spec's recency-update scenario: fill a 3-byte budget
with three 1-byte items, read item 1 (promoting it), then insert a fourth
1-byte item. -/
def recencyScenarioOps : List Op :=
  [Op.opSet 0 "k1" [0] 100, Op.opSet 0 "k2" [0] 100, Op.opSet 0 "k3" [0] 100,
   Op.opGet 1 "k1", Op.opSet 1 "k4" [0] 100]

/-- Expected outcome of the recency-update scenario: item 2 was evicted
while items 1, 3 and 4 remain. -/
def recencyScenarioCheck : Bool :=
  match run recencyScenarioOps (initCache 3 1) with
  | none => false
  | some s =>
    containsKey "k1" s && !containsKey "k2" s && containsKey "k3" s &&
      containsKey "k4" s

/-- Operations showing the recency effect of a no-op `set`: fill a 2-byte
budget with "a" then "b", re-`set` "a" (stores nothing but promotes "a"),
then insert "c" forcing one eviction. -/
def noopSetOpsWith : List Op :=
  [Op.opSet 0 "a" [0] 100, Op.opSet 0 "b" [0] 100, Op.opSet 0 "a" [1] 100,
   Op.opSet 0 "c" [0] 100]

/-- The same operations without the no-op `set` of "a". -/
def noopSetOpsWithout : List Op :=
  [Op.opSet 0 "a" [0] 100, Op.opSet 0 "b" [0] 100, Op.opSet 0 "c" [0] 100]

/-- With the no-op `set`, inserting "c" evicts "b" and keeps "a"; without
it, the same insertion evicts "a" and keeps "b". -/
def noopSetCheck : Bool :=
  (match run noopSetOpsWith (initCache 2 1) with
   | none => false
   | some s => containsKey "a" s && !containsKey "b" s) &&
  (match run noopSetOpsWithout (initCache 2 1) with
   | none => false
   | some s => !containsKey "a" s && containsKey "b" s)

/-- Concrete one-entry cache holding a live entry, used by witnesses. -/
def witnessLive : CacheState :=
  { maxSizeBytes := 4, maxItemSizeBytes := 2, curSize := 1,
    lru := [("a", ⟨[1], 3⟩)], evicted := 0, requests := 0, hits := 0,
    hitsExpired := 0, added := 0, overflow := 0 }

/-- Concrete one-entry cache whose entry expired at instant 3, used by
witnesses. -/
def witnessExpired : CacheState :=
  { maxSizeBytes := 4, maxItemSizeBytes := 2, curSize := 2,
    lru := [("a", ⟨[1, 2], 3⟩)], evicted := 0, requests := 0, hits := 0,
    hitsExpired := 0, added := 0, overflow := 0 }

/-- Concrete two-entry cache at its byte budget, used by witnesses. -/
def witnessFull : CacheState :=
  { maxSizeBytes := 2, maxItemSizeBytes := 2, curSize := 2,
    lru := [("a", ⟨[1], 9⟩), ("b", ⟨[2], 9⟩)], evicted := 0, requests := 0,
    hits := 0, hitsExpired := 0, added := 0, overflow := 0 }

/-! ### List-level utility lemmas -/

theorem key_of_find? {k : String} {l : Lru} {p : String × Entry}
    (h : l.find? (fun q => q.1 == k) = some p) : p.1 = k := by
  have hp := List.find?_some h
  simpa using hp

theorem perm_cons_eraseP {p : String × Entry → Bool} {l : Lru}
    {a : String × Entry} (h : l.find? p = some a) :
    l.Perm (a :: l.eraseP p) := by
  induction l with
  | nil => simp at h
  | cons b t ih =>
    by_cases hb : p b
    · rw [List.find?_cons_of_pos _ hb] at h
      cases h
      rw [List.eraseP_cons_of_pos hb]
    · rw [List.find?_cons_of_neg _ hb] at h
      rw [List.eraseP_cons_of_neg hb]
      exact ((ih h).cons b).trans (List.Perm.swap a b _)

theorem sumLens_cons (p : String × Entry) (l : Lru) :
    sumLens (p :: l) = p.2.data.length + sumLens l := by
  simp [sumLens]

theorem sumLens_append (l1 l2 : Lru) :
    sumLens (l1 ++ l2) = sumLens l1 + sumLens l2 := by
  simp [sumLens]

theorem sumLens_perm {l1 l2 : Lru} (h : l1.Perm l2) :
    sumLens l1 = sumLens l2 := by
  unfold sumLens
  exact (h.map (fun p => p.2.data.length)).sum_eq

theorem findEntry_eq_none_iff {k : String} {l : Lru} :
    findEntry k l = none ↔ ∀ p ∈ l, p.1 ≠ k := by
  simp [findEntry, List.find?_eq_none]

theorem key_notMem_of_findEntry_eq_none {k : String} {l : Lru}
    (h : findEntry k l = none) : k ∉ l.map Prod.fst := by
  intro hk
  obtain ⟨p, hp, hpk⟩ := List.mem_map.mp hk
  exact (findEntry_eq_none_iff.mp h p hp) hpk

theorem lruAdd_of_findEntry_eq_none {k : String} {e : Entry} {l : Lru}
    (h : findEntry k l = none) : lruAdd k e l = (k, e) :: l := by
  unfold lruAdd
  rw [List.eraseP_of_forall_not]
  intro p hp
  simpa using findEntry_eq_none_iff.mp h p hp

theorem findEntry_eq_none_of_take {k : String} {l : Lru} (n : Nat)
    (h : findEntry k l = none) : findEntry k (l.take n) = none := by
  rw [findEntry_eq_none_iff] at h ⊢
  exact fun p hp => h p (List.mem_of_mem_take hp)

theorem take_min_length (l : Lru) (n : Nat) :
    l.take (min n l.length) = l.take n := by
  rcases Nat.le_total n l.length with h | h
  · rw [Nat.min_eq_left h]
  · rw [Nat.min_eq_right h, List.take_length, List.take_of_length_le h]

/-! ### The eviction loop -/

theorem evictLoopFuel_spec : ∀ (fuel size : Nat) (s : CacheState),
    s.lru.length < fuel →
    s.curSize = sumLens s.lru →
    size ≤ s.maxItemSizeBytes →
    s.maxItemSizeBytes ≤ s.maxSizeBytes →
    ∃ s' n, evictLoopFuel fuel size s = some (s', false) ∧
      s'.lru = s.lru.take n ∧
      s'.curSize = sumLens s'.lru ∧
      s'.curSize + size ≤ s.maxSizeBytes ∧
      s'.maxSizeBytes = s.maxSizeBytes ∧
      s'.maxItemSizeBytes = s.maxItemSizeBytes ∧
      s'.requests = s.requests ∧ s'.hits = s.hits ∧
      s'.hitsExpired = s.hitsExpired ∧ s'.added = s.added ∧
      s'.overflow = s.overflow := by
  intro fuel
  induction fuel with
  | zero => intro size s hfuel; omega
  | succ fuel ih =>
    intro size s hfuel hsum hitem hcfg
    unfold evictLoopFuel
    by_cases hfit : s.curSize + size > s.maxSizeBytes
    · rw [if_pos hfit]
      cases hL : s.lru.getLast? with
      | none =>
        exfalso
        rw [List.getLast?_eq_none_iff] at hL
        rw [hL] at hsum
        simp [sumLens] at hsum
        omega
      | some p =>
        obtain ⟨ys, hys⟩ := List.getLast?_eq_some_iff.mp hL
        set s1 : CacheState := onEvict p.2 { s with lru := s.lru.dropLast } with hs1
        have hdrop : s.lru.dropLast = ys := by rw [hys, List.dropLast_concat]
        have hlen1 : s1.lru.length < fuel := by
          have : s.lru.length = ys.length + 1 := by rw [hys]; simp
          simp only [hs1, onEvict, hdrop]
          omega
        have hsum1 : s1.curSize = sumLens s1.lru := by
          have : sumLens s.lru = sumLens ys + p.2.data.length := by
            rw [hys, sumLens_append, sumLens_cons]
            simp [sumLens]
          simp only [hs1, onEvict, hdrop]
          omega
        obtain ⟨s', n, hrun, htake, hsum', hfit', hmax', hmaxI', hreq', hhits',
          hexp', hadd', hov'⟩ :=
          ih size s1 hlen1 hsum1 (by simpa [hs1, onEvict] using hitem)
            (by simpa [hs1, onEvict] using hcfg)
        refine ⟨s', min n ys.length, ?_, ?_, hsum', ?_, ?_, ?_, ?_, ?_, ?_, ?_, ?_⟩
        · simpa [hs1] using hrun
        · rw [htake]
          simp only [hs1, hdrop, onEvict]
          rw [hys, List.take_append_of_le_length (Nat.min_le_right n ys.length),
            take_min_length]
        · simpa [hs1, onEvict] using hfit'
        · simpa [hs1, onEvict] using hmax'
        · simpa [hs1, onEvict] using hmaxI'
        · simpa [hs1, onEvict] using hreq'
        · simpa [hs1, onEvict] using hhits'
        · simpa [hs1, onEvict] using hexp'
        · simpa [hs1, onEvict] using hadd'
        · simpa [hs1, onEvict] using hov'
    · rw [if_neg hfit]
      exact ⟨s, s.lru.length, rfl, (List.take_length s.lru).symm, hsum,
        by omega, rfl, rfl, rfl, rfl, rfl, rfl, rfl⟩

theorem evictLoop_spec {size : Nat} {s : CacheState}
    (hsum : s.curSize = sumLens s.lru)
    (hitem : size ≤ s.maxItemSizeBytes)
    (hcfg : s.maxItemSizeBytes ≤ s.maxSizeBytes) :
    ∃ s' n, evictLoop size s = some (s', false) ∧
      s'.lru = s.lru.take n ∧
      s'.curSize = sumLens s'.lru ∧
      s'.curSize + size ≤ s.maxSizeBytes ∧
      s'.maxSizeBytes = s.maxSizeBytes ∧
      s'.maxItemSizeBytes = s.maxItemSizeBytes ∧
      s'.requests = s.requests ∧ s'.hits = s.hits ∧
      s'.hitsExpired = s.hitsExpired ∧ s'.added = s.added ∧
      s'.overflow = s.overflow :=
  evictLoopFuel_spec (s.lru.length + 1) size s (Nat.lt_succ_self _) hsum hitem hcfg

/-! ### Branch lemmas for `set` and `get` -/

theorem find?_eq_key_entry {k : String} {l : Lru} {e : Entry}
    (hfind : findEntry k l = some e) :
    l.find? (fun p => p.1 == k) = some (k, e) := by
  unfold findEntry at hfind
  cases hp : l.find? (fun p => p.1 == k) with
  | none => rw [hp] at hfind; simp at hfind
  | some p =>
    have hk := key_of_find? hp
    rw [hp] at hfind
    have h2 : p.2 = e := by simpa using hfind
    rw [← hk, ← h2]

theorem set_noop {now ttl : Nat} {k : String} {v : List Nat} {s : CacheState}
    {e : Entry} (hfind : findEntry k s.lru = some e) :
    set now k v ttl s = some { s with lru := lruAdd k e s.lru } := by
  simp [set, hfind]

theorem set_overflow {now ttl : Nat} {k : String} {v : List Nat}
    {s : CacheState} (habs : findEntry k s.lru = none)
    (hbig : v.length > s.maxItemSizeBytes) :
    set now k v ttl s = some { s with overflow := s.overflow + 1 } := by
  simp [set, habs, ensureFits, hbig]

theorem set_stores {now ttl : Nat} {k : String} {v : List Nat} {s : CacheState}
    (hInv : Inv s) (habs : findEntry k s.lru = none)
    (hsize : v.length ≤ s.maxItemSizeBytes) :
    ∃ (s1 : CacheState) (n : Nat),
      s1.lru = s.lru.take n ∧ s1.maxSizeBytes = s.maxSizeBytes ∧
      set now k v ttl s = some
        { s1 with lru := (k, ⟨v, now + ttl⟩) :: s1.lru,
                  added := s1.added + 1,
                  curSize := s1.curSize + v.length } ∧
      s1.curSize + v.length ≤ s.maxSizeBytes ∧
      s1.curSize = sumLens s1.lru ∧
      s1.maxItemSizeBytes = s.maxItemSizeBytes ∧
      s1.requests = s.requests ∧ s1.hits = s.hits ∧
      s1.hitsExpired = s.hitsExpired ∧ s1.added = s.added ∧
      s1.overflow = s.overflow := by
  obtain ⟨h1, h2, h3, h4, h5⟩ := hInv
  obtain ⟨s1, n, hrun, htake, hsum1, hfit1, hmax1, hmaxI1, hreq1, hhits1,
    hexp1, hadd1, hov1⟩ := evictLoop_spec h1 hsize h5
  have hens : ensureFits v.length s = some (true, s1, false) := by
    unfold ensureFits
    rw [if_neg (by omega), hrun]
    rfl
  have habs1 : findEntry k s1.lru = none := by
    rw [htake]; exact findEntry_eq_none_of_take n habs
  refine ⟨s1, n, htake, hmax1, ?_, by omega, hsum1, hmaxI1, hreq1, hhits1,
    hexp1, hadd1, hov1⟩
  simp [set, habs, hens, lruAdd_of_findEntry_eq_none habs1]

theorem get_absent {now : Nat} {k : String} {s : CacheState}
    (habs : findEntry k s.lru = none) :
    get now k s = (none, { s with requests := s.requests + 1 }) := by
  simp [get, habs]

theorem get_fresh {now : Nat} {k : String} {s : CacheState} {e : Entry}
    (hfind : findEntry k s.lru = some e) (hexp : ¬ e.expiryTime < now) :
    get now k s = (some e.data,
      { s with requests := s.requests + 1, hits := s.hits + 1,
               lru := lruAdd k e s.lru }) := by
  simp [get, hfind, hexp]

theorem get_expired {now : Nat} {k : String} {s : CacheState} {e : Entry}
    (hfind : findEntry k s.lru = some e) (hexp : e.expiryTime < now) :
    get now k s = (none,
      { s with requests := s.requests + 1, hitsExpired := s.hitsExpired + 1,
               evicted := s.evicted + 1,
               lru := s.lru.eraseP (fun p => p.1 == k),
               curSize := s.curSize - e.data.length }) := by
  simp [get, hfind, hexp, lruRemoveState, lruAdd, onEvict,
    List.find?_cons_of_pos, List.eraseP_cons_of_pos]

/-! ### Invariant preservation -/

theorem initCache_inv {maxS maxI : Nat} (h : maxI ≤ maxS) :
    Inv (initCache maxS maxI) := by
  refine ⟨rfl, Nat.zero_le _, ?_, ?_, h⟩ <;> simp [initCache]

theorem sumLens_eraseP_of_find? {k : String} {l : Lru} {e : Entry}
    (hfind : findEntry k l = some e) :
    sumLens l = e.data.length + sumLens (l.eraseP (fun p => p.1 == k)) := by
  have hperm := perm_cons_eraseP (find?_eq_key_entry hfind)
  calc sumLens l = sumLens ((k, e) :: l.eraseP (fun p => p.1 == k)) :=
        sumLens_perm hperm
    _ = e.data.length + sumLens (l.eraseP (fun p => p.1 == k)) :=
        sumLens_cons _ _

theorem get_inv {now : Nat} {k : String} {s : CacheState} (hInv : Inv s) :
    Inv (get now k s).2 := by
  obtain ⟨h1, h2, h3, h4, h5⟩ := hInv
  cases hf : findEntry k s.lru with
  | none => rw [get_absent hf]; exact ⟨h1, h2, h3, h4, h5⟩
  | some e =>
    have hperm := perm_cons_eraseP (find?_eq_key_entry hf)
    have hsub : List.Sublist (s.lru.eraseP (fun p => p.1 == k)) s.lru :=
      List.eraseP_sublist s.lru
    by_cases hexp : e.expiryTime < now
    · rw [get_expired hf hexp]
      have hsum := sumLens_eraseP_of_find? hf
      refine ⟨?_, ?_, ?_, ?_, h5⟩
      · show s.curSize - e.data.length =
          sumLens (s.lru.eraseP (fun p => p.1 == k))
        omega
      · show s.curSize - e.data.length ≤ s.maxSizeBytes
        omega
      · intro p hp
        exact h3 p (hsub.subset hp)
      · exact (hsub.map Prod.fst).nodup h4
    · rw [get_fresh hf hexp]
      refine ⟨?_, h2, ?_, ?_, h5⟩
      · show s.curSize = sumLens (lruAdd k e s.lru)
        rw [h1]
        exact sumLens_perm hperm
      · intro p hp
        simp only [lruAdd] at hp
        rcases List.mem_cons.mp hp with hh | ht
        · subst hh
          exact h3 _ (List.mem_of_find?_eq_some (find?_eq_key_entry hf))
        · exact h3 p (hsub.subset ht)
      · show ((lruAdd k e s.lru).map Prod.fst).Nodup
        exact ((hperm.map Prod.fst).nodup) h4

theorem set_inv {now ttl : Nat} {k : String} {v : List Nat} {s t : CacheState}
    (hInv : Inv s) (hset : set now k v ttl s = some t) : Inv t := by
  have hInv' := hInv
  obtain ⟨h1, h2, h3, h4, h5⟩ := hInv'
  cases hf : findEntry k s.lru with
  | some e =>
    rw [set_noop hf] at hset
    cases hset
    have hperm := perm_cons_eraseP (find?_eq_key_entry hf)
    refine ⟨?_, h2, ?_, ?_, h5⟩
    · rw [h1]
      exact sumLens_perm hperm
    · intro p hp
      simp only [lruAdd] at hp
      rcases List.mem_cons.mp hp with hh | ht
      · subst hh
        exact h3 _ (List.mem_of_find?_eq_some (find?_eq_key_entry hf))
      · exact h3 p ((List.eraseP_sublist s.lru).subset ht)
    · simp only [lruAdd]
      exact (hperm.map Prod.fst).nodup h4
  | none =>
    by_cases hbig : v.length > s.maxItemSizeBytes
    · rw [set_overflow hf hbig] at hset
      cases hset
      exact ⟨h1, h2, h3, h4, h5⟩
    · obtain ⟨s1, n, htake, hmax1, heq, hfit, hsum1, hmaxI1, _, _, _, _, _⟩ :=
        set_stores hInv hf (Nat.not_lt.mp hbig)
      rw [heq] at hset
      cases hset
      have hkeys : k ∉ (s.lru.take n).map Prod.fst := fun hk =>
        key_notMem_of_findEntry_eq_none hf
          (List.mem_map.mpr (by
            obtain ⟨p, hp, hpk⟩ := List.mem_map.mp hk
            exact ⟨p, List.mem_of_mem_take hp, hpk⟩))
      refine ⟨?_, ?_, ?_, ?_, ?_⟩
      · show s1.curSize + v.length =
          sumLens ((k, (⟨v, now + ttl⟩ : Entry)) :: s1.lru)
        rw [sumLens_cons]
        show s1.curSize + v.length = v.length + sumLens s1.lru
        omega
      · show s1.curSize + v.length ≤ s1.maxSizeBytes
        omega
      · intro p hp
        rcases List.mem_cons.mp hp with hh | ht
        · subst hh
          show v.length ≤ s1.maxItemSizeBytes
          omega
        · rw [htake] at ht
          show p.2.data.length ≤ s1.maxItemSizeBytes
          rw [hmaxI1]
          exact h3 p (List.mem_of_mem_take ht)
      · show (k :: s1.lru.map Prod.fst).Nodup
        refine List.nodup_cons.mpr ⟨?_, ?_⟩
        · rw [htake]
          exact hkeys
        · rw [htake]
          exact ((List.take_sublist n s.lru).map Prod.fst).nodup h4
      · show s1.maxItemSizeBytes ≤ s1.maxSizeBytes
        omega

theorem foldl_onEvict (l : Lru) : ∀ s : CacheState,
    l.foldl (fun t p => onEvict p.2 t) s =
      { s with evicted := s.evicted + l.length,
               curSize := s.curSize - sumLens l } := by
  induction l with
  | nil => intro s; simp [sumLens]
  | cons p t ih =>
    intro s
    rw [List.foldl_cons, ih]
    simp [onEvict, sumLens_cons, CacheState.mk.injEq]
    omega

theorem reset_eq (s : CacheState) :
    reset s = { s with lru := [], curSize := 0,
                       evicted := s.evicted + s.lru.length } := by
  unfold reset
  rw [foldl_onEvict]

theorem reset_inv {s : CacheState} (hInv : Inv s) : Inv (reset s) := by
  obtain ⟨_, _, _, _, h5⟩ := hInv
  rw [reset_eq]
  exact ⟨rfl, Nat.zero_le _, by simp, by simp, h5⟩

theorem get_limits {now : Nat} {k : String} {s : CacheState} :
    limits (get now k s).2 = limits s := by
  cases hf : findEntry k s.lru with
  | none => rw [get_absent hf]; rfl
  | some e =>
    by_cases hexp : e.expiryTime < now
    · rw [get_expired hf hexp]; rfl
    · rw [get_fresh hf hexp]; rfl

theorem set_limits {now ttl : Nat} {k : String} {v : List Nat}
    {s t : CacheState} (hInv : Inv s) (hset : set now k v ttl s = some t) :
    limits t = limits s := by
  cases hf : findEntry k s.lru with
  | some e =>
    rw [set_noop hf] at hset
    cases hset
    rfl
  | none =>
    by_cases hbig : v.length > s.maxItemSizeBytes
    · rw [set_overflow hf hbig] at hset
      cases hset
      rfl
    · obtain ⟨s1, n, _, hmax1, heq, _, _, hmaxI1, _, _, _, _, _⟩ :=
        set_stores hInv hf (Nat.not_lt.mp hbig)
      rw [heq] at hset
      cases hset
      show ((s1.maxSizeBytes, s1.maxItemSizeBytes) : Nat × Nat) = limits s
      rw [hmax1, hmaxI1]
      rfl

theorem store_inv_limits {now ttl : Nat} : ∀ (kvs : List (String × List Nat))
    {s t : CacheState}, Inv s → store now kvs ttl s = some t →
    Inv t ∧ limits t = limits s := by
  intro kvs
  induction kvs with
  | nil =>
    intro s t hInv hst
    cases hst
    exact ⟨hInv, rfl⟩
  | cons kv rest ih =>
    intro s t hInv hst
    unfold store at hst
    cases hs : set now kv.1 kv.2 ttl s with
    | none => rw [hs] at hst; cases hst
    | some u =>
      rw [hs] at hst
      obtain ⟨hu, hlim⟩ := ih (set_inv hInv hs) hst
      exact ⟨hu, hlim.trans (set_limits hInv hs)⟩

theorem fetch_inv_limits {now : Nat} : ∀ (ks : List String) {s : CacheState},
    Inv s → Inv (fetch now ks s).2 ∧ limits (fetch now ks s).2 = limits s := by
  intro ks
  induction ks with
  | nil => intro s hInv; exact ⟨hInv, rfl⟩
  | cons k rest ih =>
    intro s hInv
    unfold fetch
    cases hg : get now k s with
    | mk r u =>
      have hu : Inv u := by
        have := @get_inv now k s hInv
        rw [hg] at this
        exact this
      have hul : limits u = limits s := by
        have := @get_limits now k s
        rw [hg] at this
        exact this
      obtain ⟨h1, h2⟩ := ih hu
      cases r with
      | none => exact ⟨h1, h2.trans hul⟩
      | some v => exact ⟨h1, h2.trans hul⟩

theorem step_inv_limits {o : Op} {s t : CacheState} (hInv : Inv s)
    (hstep : step o s = some t) : Inv t ∧ limits t = limits s := by
  cases o with
  | opSet now k v ttl =>
    exact ⟨set_inv hInv hstep, set_limits hInv hstep⟩
  | opGet now k =>
    cases hstep
    exact ⟨get_inv hInv, get_limits⟩
  | opStore now kvs ttl =>
    exact store_inv_limits kvs hInv hstep
  | opFetch now ks =>
    cases hstep
    exact fetch_inv_limits ks hInv
  | opReset =>
    cases hstep
    refine ⟨reset_inv hInv, ?_⟩
    rw [reset_eq]
    rfl

theorem run_inv_limits : ∀ (ops : List Op) {s t : CacheState}, Inv s →
    run ops s = some t → Inv t ∧ limits t = limits s := by
  intro ops
  induction ops with
  | nil =>
    intro s t hInv hrun
    cases hrun
    exact ⟨hInv, rfl⟩
  | cons o rest ih =>
    intro s t hInv hrun
    unfold run at hrun
    cases hs : step o s with
    | none => rw [hs] at hrun; cases hrun
    | some u =>
      rw [hs] at hrun
      obtain ⟨hu, hul⟩ := step_inv_limits hInv hs
      obtain ⟨ht, htl⟩ := ih hu hrun
      exact ⟨ht, htl.trans hul⟩

theorem findEntry_cons_self (k : String) (e : Entry) (l : Lru) :
    findEntry k ((k, e) :: l) = some e := by
  unfold findEntry
  rw [List.find?_cons_of_pos _ (by simp)]
  rfl

theorem findEntry_eraseP_eq_none {k : String} {l : Lru} {e : Entry}
    (hfind : findEntry k l = some e) (hnodup : (l.map Prod.fst).Nodup) :
    findEntry k (l.eraseP (fun p => p.1 == k)) = none := by
  have hperm := (perm_cons_eraseP (find?_eq_key_entry hfind)).map Prod.fst
  have hnd : (k :: (l.eraseP (fun p => p.1 == k)).map Prod.fst).Nodup :=
    hperm.nodup hnodup
  rw [findEntry_eq_none_iff]
  intro p hp hpk
  exact (List.nodup_cons.mp hnd).1 (List.mem_map.mpr ⟨p, hp, hpk⟩)

theorem evictLoopFuel_take : ∀ (fuel size : Nat) (s s' : CacheState)
    (b : Bool), evictLoopFuel fuel size s = some (s', b) →
    ∃ n, s'.lru = s.lru.take n := by
  intro fuel
  induction fuel with
  | zero => intro size s s' b h; simp [evictLoopFuel] at h
  | succ fuel ih =>
    intro size s s' b h
    unfold evictLoopFuel at h
    by_cases hfit : s.curSize + size > s.maxSizeBytes
    · rw [if_pos hfit] at h
      cases hL : s.lru.getLast? with
      | some p =>
        rw [hL] at h
        obtain ⟨ys, hys⟩ := List.getLast?_eq_some_iff.mp hL
        obtain ⟨n, hn⟩ := ih size _ s' b h
        refine ⟨min n ys.length, ?_⟩
        rw [hn]
        show (onEvict p.2 { s with lru := s.lru.dropLast }).lru.take n =
          s.lru.take (min n ys.length)
        simp only [onEvict]
        rw [hys, List.dropLast_concat,
          List.take_append_of_le_length (Nat.min_le_right n ys.length),
          take_min_length]
      | none =>
        rw [hL] at h
        simp only at h
        by_cases hstill :
            (reset s).curSize + size > (reset s).maxSizeBytes
        · rw [if_pos hstill] at h
          cases h
        · rw [if_neg hstill] at h
          have hs' : s' = reset s := by
            cases h
            rfl
          refine ⟨0, ?_⟩
          rw [hs', reset_eq]
          rfl
    · rw [if_neg hfit] at h
      have hs' : s' = s := by
        cases h
        rfl
      rw [hs']
      exact ⟨s.lru.length, (List.take_length s.lru).symm⟩

/-! ### The claims -/

/-- C1: for every sequence of operations (`set`, `get`, `Store`, `Fetch`,
`reset`) on a cache constructed with `maxItemSizeBytes ≤ maxSizeBytes`,
after each operation completes `curSize` equals the sum of `len(data)` over
all entries currently held in the LRU map, and `curSize` never exceeds
`maxSizeBytes`.  (Quantifying over all operation lists covers every prefix,
hence the state after each operation.) -/
theorem C1_curSize_accounting (maxS maxI : Nat) (ops : List Op)
    (s' : CacheState) (hcfg : maxI ≤ maxS)
    (hrun : run ops (initCache maxS maxI) = some s') :
    s'.curSize = sumLens s'.lru ∧ s'.curSize ≤ maxS := by
  obtain ⟨⟨h1, h2, _, _, _⟩, hlim⟩ :=
    run_inv_limits ops (initCache_inv hcfg) hrun
  have hmax : s'.maxSizeBytes = maxS := congrArg Prod.fst hlim
  exact ⟨h1, by omega⟩

/-- Witness for C1 on the concrete recency scenario. -/
theorem C1_curSize_accounting_witness :
    ((run recencyScenarioOps (initCache 3 1)).getD (initCache 3 1)).curSize =
      sumLens ((run recencyScenarioOps (initCache 3 1)).getD
        (initCache 3 1)).lru ∧
    ((run recencyScenarioOps (initCache 3 1)).getD
      (initCache 3 1)).curSize ≤ 3 :=
  C1_curSize_accounting 3 1 recencyScenarioOps _ (by decide) (by decide)

/-- C3: when key `k` is already present, `set(k, v, ttl)` is a no-op on the
entry: afterwards `k` still maps to its original stored value and original
expiry, the entries of the cache are unchanged (as a multiset — only the
recency position of `k` moves), and no byte count or eviction/addition/
overflow counter changes. -/
theorem C3_set_existing_key_noop (now ttl : Nat) (k : String) (v : List Nat)
    (s : CacheState) (e : Entry) (hfind : findEntry k s.lru = some e) :
    ∃ t, set now k v ttl s = some t ∧
      findEntry k t.lru = some e ∧
      t.lru.Perm s.lru ∧
      t.curSize = s.curSize ∧ t.evicted = s.evicted ∧ t.added = s.added ∧
      t.overflow = s.overflow := by
  refine ⟨_, set_noop hfind, ?_, ?_, rfl, rfl, rfl, rfl⟩
  · show findEntry k (lruAdd k e s.lru) = some e
    exact findEntry_cons_self k e _
  · show (lruAdd k e s.lru).Perm s.lru
    exact (perm_cons_eraseP (find?_eq_key_entry hfind)).symm

/-- Witness for C3 at a concrete one-entry cache. -/
theorem C3_set_existing_key_noop_witness :
    ∃ t, set 5 "a" [9, 9] 7 witnessLive = some t ∧
      findEntry "a" t.lru = some ⟨[1], 3⟩ ∧
      t.lru.Perm [("a", ⟨[1], 3⟩)] ∧
      t.curSize = 1 ∧ t.evicted = 0 ∧ t.added = 0 ∧ t.overflow = 0 :=
  C3_set_existing_key_noop 5 7 "a" [9, 9] witnessLive ⟨[1], 3⟩ (by decide)

/-- C5: a `get` of a key whose entry has expired removes the entry
(decrementing `curSize` by exactly the entry's value size — the third
conjunct shows the subtraction does not truncate), signals one eviction and
one expired hit, and reports not-found. -/
theorem C5_expired_get_removes (now : Nat) (k : String) (s : CacheState)
    (e : Entry) (hfind : findEntry k s.lru = some e)
    (hexp : e.expiryTime < now)
    (hnodup : (s.lru.map Prod.fst).Nodup)
    (hsz : e.data.length ≤ s.curSize) :
    (get now k s).1 = none ∧
    (get now k s).2.curSize = s.curSize - e.data.length ∧
    s.curSize = (get now k s).2.curSize + e.data.length ∧
    (get now k s).2.hitsExpired = s.hitsExpired + 1 ∧
    (get now k s).2.evicted = s.evicted + 1 ∧
    findEntry k (get now k s).2.lru = none := by
  rw [get_expired hfind hexp]
  have harith : s.curSize = s.curSize - e.data.length + e.data.length := by
    omega
  exact ⟨rfl, rfl, harith, rfl, rfl, findEntry_eraseP_eq_none hfind hnodup⟩

/-- Witness for C5 at a concrete expired entry. -/
theorem C5_expired_get_removes_witness :
    (get 9 "a" witnessExpired).1 = none ∧
    (get 9 "a" witnessExpired).2.curSize = witnessExpired.curSize - 2 ∧
    witnessExpired.curSize = (get 9 "a" witnessExpired).2.curSize + 2 ∧
    (get 9 "a" witnessExpired).2.hitsExpired =
      witnessExpired.hitsExpired + 1 ∧
    (get 9 "a" witnessExpired).2.evicted = witnessExpired.evicted + 1 ∧
    findEntry "a" (get 9 "a" witnessExpired).2.lru = none :=
  C5_expired_get_removes 9 "a" witnessExpired ⟨[1, 2], 3⟩ (by decide)
    (by decide) (by decide) (by decide)

/-- C6: a `set` of an absent key whose value exceeds `maxItemSizeBytes`
leaves the whole cache state unchanged except for exactly one increment of
the overflow counter: same entries, same recency order, same `curSize`, no
addition and no eviction. -/
theorem C6_oversize_reject (now ttl : Nat) (k : String) (v : List Nat)
    (s : CacheState) (habs : findEntry k s.lru = none)
    (hbig : v.length > s.maxItemSizeBytes) :
    set now k v ttl s = some { s with overflow := s.overflow + 1 } :=
  set_overflow habs hbig

/-- Witness for C6: storing three bytes with a two-byte item limit. -/
theorem C6_oversize_reject_witness :
    set 0 "big" [0, 1, 2] 5 (initCache 10 2) =
      some { (initCache 10 2) with overflow := 1 } :=
  C6_oversize_reject 0 5 "big" [0, 1, 2] (initCache 10 2) (by decide)
    (by decide)

/-- C7: in any state satisfying the byte-accounting invariant (which
includes the construction precondition `maxItemSizeBytes ≤ maxSizeBytes`),
`ensureFits` returns (the eviction loop terminates) and its full-reset
branch does not run (the `false` flag). -/
theorem C7_eviction_loop_safe (size : Nat) (s : CacheState) (hInv : Inv s) :
    ∃ ok s1, ensureFits size s = some (ok, s1, false) := by
  obtain ⟨h1, _, _, _, h5⟩ := hInv
  by_cases hbig : size > s.maxItemSizeBytes
  · exact ⟨false, s, by simp [ensureFits, hbig]⟩
  · obtain ⟨s1, n, hrun, _⟩ := evictLoop_spec h1 (Nat.not_lt.mp hbig) h5
    refine ⟨true, s1, ?_⟩
    unfold ensureFits
    rw [if_neg hbig, hrun]
    rfl

/-- Witness for C7 in a full cache that must evict to fit a new item. -/
theorem C7_eviction_loop_safe_witness :
    ∃ ok s1, ensureFits 2 witnessFull = some (ok, s1, false) :=
  C7_eviction_loop_safe 2 witnessFull
    ⟨by decide, by decide, by decide, by decide, by decide⟩

/-- C2: the room-making loop only ever removes the entry at the
least-recently-used end, one at a time, re-checking the size predicate —
so the surviving recency list is always a front (most-recently-used)
segment of the original, and the cache never evicts a more-recently-used
entry while a less-recently-used one remains (the full-reset fallback
clears to the empty list, a trivial front segment); a successful fresh
`get` promotes its key to most-recently-used; and in the concrete
scenario — fill a 3-byte budget with items 1..3, read item 1, insert
item 4 — item 2 is evicted while items 1, 3, 4 remain. -/
theorem C2_eviction_respects_recency :
    (∀ (fuel size : Nat) (s s' : CacheState) (b : Bool),
      evictLoopFuel fuel size s = some (s', b) →
      ∃ n, s'.lru = s.lru.take n) ∧
    (∀ (now : Nat) (k : String) (s : CacheState) (e : Entry),
      findEntry k s.lru = some e → ¬ e.expiryTime < now →
      (get now k s).2.lru.head? = some (k, e) ∧
      (get now k s).1 = some e.data) ∧
    recencyScenarioCheck = true := by
  refine ⟨evictLoopFuel_take, ?_, by decide⟩
  intro now k s e hfind hexp
  rw [get_fresh hfind hexp]
  exact ⟨rfl, rfl⟩

/-- Witness for C2: the loop applied where no eviction is needed, and a
promoting `get` on a concrete one-entry cache. -/
theorem C2_eviction_respects_recency_witness :
    (∃ n, (initCache 3 1).lru = (initCache 3 1).lru.take n) ∧
    ((get 2 "a" witnessLive).2.lru.head? = some ("a", ⟨[1], 3⟩) ∧
     (get 2 "a" witnessLive).1 = some [1]) :=
  ⟨C2_eviction_respects_recency.1 1 0 (initCache 3 1) (initCache 3 1) false
      (by decide),
   C2_eviction_respects_recency.2.1 2 "a" witnessLive ⟨[1], 3⟩ (by decide)
      (by decide)⟩

/-- C4: a `set` that stores a new entry with TTL `ttl` at instant `now`
yields a state in which a `get` at any instant strictly before `now + ttl`
(before the TTL has elapsed) returns the stored value, a `get` at any
instant strictly after `now + ttl` (after the TTL has elapsed) reports
not-found, and in particular for `ttl = 0` every access at a strictly
later instant reports not-found. -/
theorem C4_ttl_law (now ttl : Nat) (k : String) (v : List Nat)
    (s : CacheState) (hInv : Inv s) (habs : findEntry k s.lru = none)
    (hsize : v.length ≤ s.maxItemSizeBytes) :
    ∃ t, set now k v ttl s = some t ∧
      (∀ g, g < now + ttl → (get g k t).1 = some v) ∧
      (∀ g, now + ttl < g → (get g k t).1 = none) ∧
      (ttl = 0 → ∀ g, now < g → (get g k t).1 = none) := by
  obtain ⟨s1, n, htake, hmax1, heq, _⟩ := set_stores hInv habs hsize
  refine ⟨_, heq, ?_, ?_, ?_⟩
  · intro g hg
    have hfind : findEntry k ((k, (⟨v, now + ttl⟩ : Entry)) :: s1.lru) =
        some ⟨v, now + ttl⟩ := findEntry_cons_self k _ _
    rw [get_fresh hfind (by show ¬ now + ttl < g; omega)]
  · intro g hg
    have hfind : findEntry k ((k, (⟨v, now + ttl⟩ : Entry)) :: s1.lru) =
        some ⟨v, now + ttl⟩ := findEntry_cons_self k _ _
    rw [get_expired hfind (by show now + ttl < g; omega)]
  · intro httl g hg
    have hfind : findEntry k ((k, (⟨v, now + ttl⟩ : Entry)) :: s1.lru) =
        some ⟨v, now + ttl⟩ := findEntry_cons_self k _ _
    rw [get_expired hfind (by show now + ttl < g; omega)]

/-- Witness for C4: store one byte under "a" at instant 10 with TTL 3 in a
fresh cache. -/
theorem C4_ttl_law_witness :
    ∃ t, set 10 "a" [5] 3 (initCache 4 2) = some t ∧
      (∀ g, g < 13 → (get g "a" t).1 = some [5]) ∧
      (∀ g, 13 < g → (get g "a" t).1 = none) ∧
      (3 = 0 → ∀ g, 10 < g → (get g "a" t).1 = none) :=
  C4_ttl_law 10 3 "a" [5] (initCache 4 2) (initCache_inv (by decide))
    (by decide) (by decide)

/-- C9: a `set` of a key that is already present stores nothing but
promotes the key to most-recently-used (the existence check is the
promoting `lru.Get`); consequently (concrete scenario) a later eviction
removes a different entry than it would have had the no-op `set` not
occurred: with the no-op re-`set` of "a", inserting "c" evicts "b" and
keeps "a"; without it, the same insertion evicts "a" and keeps "b". -/
theorem C9_noop_set_promotes_recency :
    (∀ (now ttl : Nat) (k : String) (v : List Nat) (s : CacheState)
      (e : Entry), findEntry k s.lru = some e →
      ∃ t, set now k v ttl s = some t ∧ t.lru.head? = some (k, e)) ∧
    noopSetCheck = true := by
  refine ⟨?_, by decide⟩
  intro now ttl k v s e hfind
  exact ⟨_, set_noop hfind, rfl⟩

/-- Witness for C9: a no-op `set` on a concrete one-entry cache leaves the
key at the most-recent position with its original entry. -/
theorem C9_noop_set_promotes_recency_witness :
    ∃ t, set 5 "a" [9, 9] 7 witnessLive = some t ∧
      t.lru.head? = some ("a", ⟨[1], 3⟩) :=
  C9_noop_set_promotes_recency.1 5 7 "a" [9, 9] witnessLive ⟨[1], 3⟩
    (by decide)

/-- C10: a `set` of a key whose entry is present but already expired is
still a no-op — the stale value and its past expiry are retained, no byte
count or addition happens — while a `get` of the key at the same instant
removes the expired entry, after which the same `set` succeeds and stores
the new value with expiry `now + ttl`. -/
theorem C10_set_on_expired_noop (now ttl : Nat) (k : String) (v : List Nat)
    (s : CacheState) (e : Entry) (hInv : Inv s)
    (hfind : findEntry k s.lru = some e) (hexp : e.expiryTime < now)
    (hsize : v.length ≤ s.maxItemSizeBytes) :
    (∃ t, set now k v ttl s = some t ∧ findEntry k t.lru = some e ∧
       t.curSize = s.curSize ∧ t.added = s.added) ∧
    ((get now k s).1 = none ∧
     findEntry k (get now k s).2.lru = none ∧
     ∃ w, set now k v ttl (get now k s).2 = some w ∧
       findEntry k w.lru = some ⟨v, now + ttl⟩) := by
  obtain ⟨h1, h2, h3, h4, h5⟩ := hInv
  constructor
  · exact ⟨_, set_noop hfind, findEntry_cons_self k e _, rfl, rfl⟩
  · have hu : Inv (get now k s).2 := get_inv ⟨h1, h2, h3, h4, h5⟩
    have habs : findEntry k (get now k s).2.lru = none := by
      rw [get_expired hfind hexp]
      exact findEntry_eraseP_eq_none hfind h4
    have husize : v.length ≤ (get now k s).2.maxItemSizeBytes := by
      have hl := @get_limits now k s
      have : (get now k s).2.maxItemSizeBytes = s.maxItemSizeBytes :=
        congrArg Prod.snd hl
      omega
    obtain ⟨u1, m, htake, hmax, heq, _⟩ := set_stores hu habs husize
    refine ⟨?_, habs, ?_⟩
    · rw [get_expired hfind hexp]
    · exact ⟨_, heq, findEntry_cons_self k _ _⟩

/-- Witness for C10 on a concrete cache holding an expired two-byte entry
under "a". -/
theorem C10_set_on_expired_noop_witness :
    (∃ t, set 9 "a" [7] 2 witnessExpired = some t ∧
       findEntry "a" t.lru = some ⟨[1, 2], 3⟩ ∧
       t.curSize = witnessExpired.curSize ∧
       t.added = witnessExpired.added) ∧
    ((get 9 "a" witnessExpired).1 = none ∧
     findEntry "a" (get 9 "a" witnessExpired).2.lru = none ∧
     ∃ w, set 9 "a" [7] 2 (get 9 "a" witnessExpired).2 = some w ∧
       findEntry "a" w.lru = some ⟨[7], 11⟩) :=
  C10_set_on_expired_noop 9 2 "a" [7] witnessExpired ⟨[1, 2], 3⟩
    ⟨by decide, by decide, by decide, by decide, by decide⟩ (by decide)
    (by decide) (by decide)

end InMemoryCache
